import Mathlib

/-!
# Verification of the sistema-gestion-pedidos core (src/main.py)

Shallow embedding of the order-management service: a binary-search-tree
product index (`ProductBST` in the source, here `PTree`), a linked-list
order store (`OrderLinkedList`, here plain `List OrderRecord` with the
source's traversal functions), the JSON persistence gateway
(`save_data` / `load_data`, files modelled as in-memory `Option` values),
and the request handlers (pure functions returning `Except Err`).

Python `float` prices are modelled as `ℚ`: the source only sums and
copies prices, and `json.dump`/`json.load` round-trip Python floats
exactly, so exact arithmetic is the faithful reading of the claims.
Pydantic models are immutable records here; the source never mutates a
`ProductModel` in place (both upsert `_insert_recursive` line 64 and the
update handler line 250 rebind `node.data` to a fresh object), so the
value semantics of the embedding coincides with the source's aliasing
behaviour.
-/

namespace SGP

/-- `ProductModel` (src/main.py lines 8-12): id, name, price, description. -/
structure ProductModel where
  id : Int
  name : String
  price : ℚ
  description : String
deriving DecidableEq, Repr

/-- `OrderNode` payload (src/main.py lines 89-103): id, embedded product
snapshots, total, status.  The `next` pointer of the linked list is the
list structure itself. -/
structure OrderRecord where
  id : Int
  products : List ProductModel
  total : ℚ
  status : String
deriving DecidableEq, Repr

/-! ## Product BST (`ProductBST`, src/main.py lines 31-86) -/

/-- The binary search tree of products: `ProductNode` has `data`, `left`,
`right`; `None` children are `leaf`. -/
inductive PTree where
  | leaf : PTree
  | node (left : PTree) (data : ProductModel) (right : PTree) : PTree
deriving DecidableEq, Repr

namespace PTree

/-- `ProductBST.insert` / `_insert_recursive` (lines 45-64): smaller ids go
left, larger go right, an equal id overwrites the node's data. -/
def insert : PTree → ProductModel → PTree
  | leaf, d => node leaf d leaf
  | node l x r, d =>
    if d.id < x.id then node (l.insert d) x r
    else if d.id > x.id then node l x (r.insert d)
    else node l d r

/-- `ProductBST.search` / `_search_recursive` (lines 66-74): returns the
matching node's data, descending left on smaller target ids. -/
def search : PTree → Int → Option ProductModel
  | leaf, _ => none
  | node l x r, pid =>
    if x.id = pid then some x
    else if pid < x.id then l.search pid
    else r.search pid

/-- `ProductBST.serialize` / `_in_order_traversal` (lines 77-86): flat
in-order list of the stored products. -/
def serialize : PTree → List ProductModel
  | leaf => []
  | node l x r => l.serialize ++ [x] ++ r.serialize

/-- The update-product handler (line 250) sets `node.data` on the node that
`search` found: replace the data at the node whose key matches, following
the search comparisons. -/
def replaceData : PTree → Int → ProductModel → PTree
  | leaf, _, _ => leaf
  | node l x r, pid, d =>
    if x.id = pid then node l d r
    else if pid < x.id then node (l.replaceData pid d) x r
    else node l x (r.replaceData pid d)

/-- All ids stored in the tree satisfy `p`. -/
inductive ForallIds (p : Int → Prop) : PTree → Prop
  | leaf : ForallIds p leaf
  | node {l r : PTree} {x : ProductModel} :
      ForallIds p l → p x.id → ForallIds p r → ForallIds p (node l x r)

/-- The binary-search-tree invariant: left subtree strictly smaller ids,
right subtree strictly larger ids, recursively. -/
inductive Ordered : PTree → Prop
  | leaf : Ordered leaf
  | node {l r : PTree} {x : ProductModel} :
      Ordered l → Ordered r →
      ForallIds (fun i => i < x.id) l → ForallIds (fun i => x.id < i) r →
      Ordered (node l x r)

end PTree

/-- A sequence of inserts, first to last (`for` loop replaying `insert`). -/
def insertAll (t : PTree) (ds : List ProductModel) : PTree :=
  ds.foldl PTree.insert t

/-- The data carried by the last insert in `ds` whose id is `i`, if any. -/
def lastInsert (ds : List ProductModel) (i : Int) : Option ProductModel :=
  ds.reverse.find? (fun d => d.id == i)

/-! ## Order linked list (`OrderLinkedList`, src/main.py lines 106-163) -/

/-- `OrderLinkedList.create_order` (lines 110-122): build the node with
total = sum of the snapshot prices and status "pending", append it at the
tail, and return it. -/
def createOrder (l : List OrderRecord) (oid : Int) (ps : List ProductModel) :
    List OrderRecord × OrderRecord :=
  let n : OrderRecord :=
    { id := oid, products := ps, total := (ps.map (fun p => p.price)).sum,
      status := "pending" }
  (l ++ [n], n)

/-- `OrderLinkedList.find_order` (lines 124-130): linear scan from head. -/
def findOrder (l : List OrderRecord) (oid : Int) : Option OrderRecord :=
  l.find? (fun o => o.id == oid)

/-- `if new_status:` (line 135) — Python truthiness: `None` and the empty
string are both skipped. -/
def applyStatus (st : Option String) (n : OrderRecord) : OrderRecord :=
  match st with
  | none => n
  | some s => if s = "" then n else { n with status := s }

/-- `if new_products:` (lines 137-139) — Python truthiness: `None` and the
empty list are both skipped; otherwise the snapshots are replaced and the
total recomputed from the new snapshots. -/
def applyProducts (ps : Option (List ProductModel)) (n : OrderRecord) :
    OrderRecord :=
  match ps with
  | none => n
  | some l =>
    if l = [] then n
    else { n with products := l, total := (l.map (fun p => p.price)).sum }

/-- `OrderLinkedList.update_order` (lines 132-141): find the node by id,
apply whichever of status/products is (truthily) supplied, return the
updated list together with the node (or `none` when absent). -/
def updateOrder : List OrderRecord → Int → Option String →
    Option (List ProductModel) → List OrderRecord × Option OrderRecord
  | [], _, _, _ => ([], none)
  | n :: rest, oid, st, ps =>
    if n.id = oid then
      let n' := applyProducts ps (applyStatus st n)
      (n' :: rest, some n')
    else
      let r := updateOrder rest oid st ps
      (n :: r.1, r.2)

/-- `OrderLinkedList.delete_order` (lines 143-155): unlink the first node
with the given id (relink predecessor to successor, or advance the head),
reporting whether a node was removed. -/
def deleteOrder : List OrderRecord → Int → List OrderRecord × Bool
  | [], _ => ([], false)
  | n :: rest, oid =>
    if n.id = oid then (rest, true)
    else
      let r := deleteOrder rest oid
      (n :: r.1, r.2)

/-- `OrderLinkedList.list_all` (lines 157-163): head-to-tail traversal; the
`to_dict` view is the record itself. -/
def listAll (l : List OrderRecord) : List OrderRecord := l

/-! ## Application state, persistence, handlers (src/main.py lines 167-311) -/

/-- The two global stores plus the two JSON artifacts (`products.json`,
`orders.json`); a missing file is `none`. -/
structure AppState where
  tree : PTree
  orders : List OrderRecord
  productsFile : Option (List ProductModel)
  ordersFile : Option (List OrderRecord)
deriving DecidableEq, Repr

/-- The error taxonomy the handlers raise: 400 duplicate-id → Conflict,
404 → NotFound, 400 id-change on update → InvalidArgument. -/
inductive Err where
  | conflict : Err
  | notFound : Err
  | invalidArgument : Err
deriving DecidableEq, Repr

/-- `save_data` (lines 173-181): overwrite both artifacts with the full
serialized product tree and the full order list. -/
def saveData (s : AppState) : AppState :=
  { s with productsFile := some s.tree.serialize,
           ordersFile := some (listAll s.orders) }

/-- Product half of `load_data` (lines 186-191): replay `insert` for each
persisted product, in file order, into the existing tree. -/
def loadProducts (t : PTree) : Option (List ProductModel) → PTree
  | none => t
  | some ps => insertAll t ps

/-- One iteration of the order-loading loop (lines 196-200): replay
`create_order`, then patch the returned node's `status` — the node is the
cell just appended at the tail, so the patch rewrites the last element. -/
def replayOrder (acc : List OrderRecord) (o : OrderRecord) :
    List OrderRecord :=
  let r := createOrder acc o.id o.products
  r.1.dropLast ++ [{ r.2 with status := o.status }]

/-- Order half of `load_data` (lines 193-202). -/
def loadOrders (l : List OrderRecord) : Option (List OrderRecord) →
    List OrderRecord
  | none => l
  | some os => os.foldl replayOrder l

/-- `load_data` (lines 183-202): both halves; a missing artifact loads
nothing. -/
def loadData (s : AppState) : AppState :=
  { s with tree := loadProducts s.tree s.productsFile,
           orders := loadOrders s.orders s.ordersFile }

/-- `create_product` handler (lines 218-224): reject an existing id, else
insert and persist. -/
def createProductH (s : AppState) (p : ProductModel) : Except Err AppState :=
  match s.tree.search p.id with
  | some _ => Except.error Err.conflict
  | none => Except.ok (saveData { s with tree := s.tree.insert p })

/-- `update_product` handler (lines 235-255): NotFound when absent,
InvalidArgument when the submitted id differs from the path id, else
replace the found node's data and persist. -/
def updateProductH (s : AppState) (pid : Int) (upd : ProductModel) :
    Except Err AppState :=
  match s.tree.search pid with
  | none => Except.error Err.notFound
  | some _ =>
    if upd.id ≠ pid then Except.error Err.invalidArgument
    else Except.ok (saveData { s with tree := s.tree.replaceData pid upd })

/-- The product-resolution loop of the order handlers (lines 266-271 and
291-296): look every id up in the tree, aborting at the first miss. -/
def resolveProducts (t : PTree) : List Int → Except Err (List ProductModel)
  | [] => Except.ok []
  | pid :: rest =>
    match t.search pid with
    | none => Except.error Err.notFound
    | some p =>
      match resolveProducts t rest with
      | Except.error e => Except.error e
      | Except.ok ps => Except.ok (p :: ps)

/-- `create_order` handler (lines 259-276): duplicate order id → Conflict
(checked first); then resolve every product id (NotFound aborts); then
append the order and persist. -/
def createOrderH (s : AppState) (oid : Int) (pids : List Int) :
    Except Err AppState :=
  match findOrder s.orders oid with
  | some _ => Except.error Err.conflict
  | none =>
    match resolveProducts s.tree pids with
    | Except.error e => Except.error e
    | Except.ok ps =>
      Except.ok (saveData { s with orders := (createOrder s.orders oid ps).1 })

/-- Lines 289-297 of the `update_order` handler: `products_found` stays
`None` when `update.product_ids` is `None` or the empty list (Python
truthiness), otherwise every id is resolved, aborting at the first miss. -/
def resolveOpt (t : PTree) : Option (List Int) →
    Except Err (Option (List ProductModel))
  | none => Except.ok none
  | some l =>
    if l = [] then Except.ok none
    else
      match resolveProducts t l with
      | Except.error e => Except.error e
      | Except.ok ps => Except.ok (some ps)

/-- `update_order` handler (lines 287-302): resolve the optional product-id
list first (a missing product id aborts with NotFound before any store is
touched); then `update_order` runs and a missing order id is NotFound; on
success persist. -/
def updateOrderH (s : AppState) (oid : Int) (st : Option String)
    (pids : Option (List Int)) : Except Err AppState :=
  match resolveOpt s.tree pids with
  | Except.error e => Except.error e
  | Except.ok ps =>
    let r := updateOrder s.orders oid st ps
    match r.2 with
    | none => Except.error Err.notFound
    | some _ => Except.ok (saveData { s with orders := r.1 })

/-- `delete_order` handler (lines 305-311): NotFound when nothing was
unlinked, else persist. -/
def deleteOrderH (s : AppState) (oid : Int) : Except Err AppState :=
  let r := deleteOrder s.orders oid
  if r.2 then Except.ok (saveData { s with orders := r.1 })
  else Except.error Err.notFound

/-! ## Reachability -/

/-- One successful mutating request (the read-only handlers do not change
state). -/
inductive Step : AppState → AppState → Prop
  | createProduct (s s' : AppState) (p : ProductModel)
      (h : createProductH s p = Except.ok s') : Step s s'
  | updateProduct (s s' : AppState) (pid : Int) (p : ProductModel)
      (h : updateProductH s pid p = Except.ok s') : Step s s'
  | createOrder (s s' : AppState) (oid : Int) (pids : List Int)
      (h : createOrderH s oid pids = Except.ok s') : Step s s'
  | updateOrder (s s' : AppState) (oid : Int) (st : Option String)
      (pids : Option (List Int))
      (h : updateOrderH s oid st pids = Except.ok s') : Step s s'
  | deleteOrder (s s' : AppState) (oid : Int)
      (h : deleteOrderH s oid = Except.ok s') : Step s s'

/-- The fresh process state: empty stores, no artifacts yet. -/
def initState : AppState :=
  { tree := PTree.leaf, orders := [], productsFile := none,
    ordersFile := none }

/-- States reachable from a fresh start by successful requests. -/
def Reachable (s : AppState) : Prop :=
  Relation.ReflTransGen Step initState s

/-- The state invariant maintained by every handler: the product tree is a
binary search tree, every order's total is the sum of its snapshot prices,
and order ids are pairwise distinct. -/
def Inv (s : AppState) : Prop :=
  s.tree.Ordered
  ∧ (∀ o ∈ s.orders, o.total = (o.products.map fun p => p.price).sum)
  ∧ (s.orders.map fun o => o.id).Nodup

/-- Persist the given state, then load its two artifacts into a fresh
process (empty tree, empty order list): the round trip of claim C2. -/
def freshReload (s : AppState) : AppState :=
  loadData { tree := PTree.leaf, orders := [],
             productsFile := (saveData s).productsFile,
             ordersFile := (saveData s).ordersFile }

/-- What one iteration of the order-loading loop makes of a persisted
order: same id, snapshots and status, total recomputed by `create_order`
from the snapshot prices. -/
def reloadRecord (o : OrderRecord) : OrderRecord :=
  { id := o.id, products := o.products,
    total := (o.products.map fun p => p.price).sum, status := o.status }

/-! ### Concrete states used by witnesses and counterexamples -/

/-- A sample product. -/
def pW : ProductModel :=
  { id := 1, name := "widget", price := 10, description := "w" }

/-- The order that referencing `pW` creates (total is the price sum the
code computes, i.e. 10). -/
def oW : OrderRecord :=
  { id := 1, products := [pW], total := ([pW].map fun p => p.price).sum,
    status := "pending" }

/-- The state after `create_product pW` on a fresh start. -/
def sW1 : AppState :=
  { tree := PTree.node PTree.leaf pW PTree.leaf, orders := [],
    productsFile := some [pW], ordersFile := some [] }

/-- The state after `create_product pW` then `create_order 1 [1]`. -/
def sW2 : AppState :=
  { tree := PTree.node PTree.leaf pW PTree.leaf, orders := [oW],
    productsFile := some [pW], ordersFile := some [oW] }

/-- An order with no products (`create_order 1 []` is accepted: the
resolution loop over an empty id list finds nothing missing). -/
def o0 : OrderRecord :=
  { id := 1, products := [], total := 0, status := "pending" }

/-- The state after `create_order 1 []` on a fresh start: order id 1 is
taken while the product index is empty. -/
def sC4 : AppState :=
  { tree := PTree.leaf, orders := [o0],
    productsFile := some [], ordersFile := some [o0] }

/-- A replacement record for product id 1 with a different price. -/
def pW2 : ProductModel :=
  { id := 1, name := "widget v2", price := 99, description := "w2" }

/-- A record whose id (2) differs from the target path id (1). -/
def pBad : ProductModel :=
  { id := 2, name := "bad", price := 3, description := "b" }

/-- A second order with no products, id 2. -/
def o2 : OrderRecord :=
  { id := 2, products := [], total := 0, status := "pending" }

/-- The state `sW2` after `update_product 1 pW2`: the tree entry is
replaced and both artifacts rewritten, the order list untouched. -/
def sW2' : AppState :=
  { tree := PTree.node PTree.leaf pW2 PTree.leaf, orders := [oW],
    productsFile := some [pW2], ordersFile := some [oW] }

/-! ## Lemmas about the product tree -/

theorem PTree.search_insert (t : PTree) (d : ProductModel) (i : Int) :
    (t.insert d).search i = if i = d.id then some d else t.search i := by
  induction t with
  | leaf =>
    simp only [PTree.insert, PTree.search]
    split_ifs <;> first | rfl | omega
  | node l x r ihl ihr =>
    by_cases h1 : d.id < x.id
    · simp only [PTree.insert, if_pos h1, PTree.search, ihl]
      split_ifs <;> first | rfl | omega
    · by_cases h2 : d.id > x.id
      · simp only [PTree.insert, if_neg h1, if_pos h2, PTree.search, ihr]
        split_ifs <;> first | rfl | omega
      · simp only [PTree.insert, if_neg h1, if_neg h2, PTree.search]
        split_ifs <;> first | rfl | omega

theorem PTree.forallIds_insert {p : Int → Prop} {t : PTree}
    {d : ProductModel} (ht : t.ForallIds p) (hd : p d.id) :
    (t.insert d).ForallIds p := by
  induction ht with
  | leaf => exact .node .leaf hd .leaf
  | @node l r x hl hx hr ihl ihr =>
    simp only [PTree.insert]
    split_ifs with h1 h2
    · exact .node ihl hx hr
    · exact .node hl hx ihr
    · exact .node hl hd hr

theorem PTree.ordered_insert {t : PTree} (d : ProductModel)
    (ht : t.Ordered) : (t.insert d).Ordered := by
  induction ht with
  | leaf => exact .node .leaf .leaf .leaf .leaf
  | @node l r x hol hor hfl hfr ihl ihr =>
    simp only [PTree.insert]
    split_ifs with h1 h2
    · exact .node ihl hor (forallIds_insert hfl h1) hfr
    · exact .node hol ihr hfl (forallIds_insert hfr h2)
    · have hde : d.id = x.id := by omega
      refine .node hol hor ?_ ?_
      · simp only [hde]; exact hfl
      · simp only [hde]; exact hfr

theorem PTree.forallIds_mem {p : Int → Prop} {t : PTree}
    (ht : t.ForallIds p) {q : ProductModel} (hq : q ∈ t.serialize) :
    p q.id := by
  induction ht with
  | leaf => simp [PTree.serialize] at hq
  | @node l r x hl hx hr ihl ihr =>
    simp only [PTree.serialize, List.append_assoc, List.mem_append,
      List.mem_singleton] at hq
    rcases hq with hq | hq | hq
    · exact ihl hq
    · rw [hq]; exact hx
    · exact ihr hq

theorem PTree.forallIds_of_mem {p : Int → Prop} {t : PTree}
    (h : ∀ q ∈ t.serialize, p q.id) : t.ForallIds p := by
  induction t with
  | leaf => exact .leaf
  | node l x r ihl ihr =>
    refine .node (ihl fun q hq => h q ?_) (h x ?_) (ihr fun q hq => h q ?_)
    · simp [PTree.serialize, hq]
    · simp [PTree.serialize]
    · simp [PTree.serialize, hq]

theorem PTree.pairwise_serialize {t : PTree} (ht : t.Ordered) :
    t.serialize.Pairwise (fun a b => a.id < b.id) := by
  induction ht with
  | leaf => simp [PTree.serialize]
  | @node l r x hol hor hfl hfr ihl ihr =>
    simp only [PTree.serialize]
    rw [List.pairwise_append, List.pairwise_append]
    refine ⟨⟨ihl, List.pairwise_singleton _ _, ?_⟩, ihr, ?_⟩
    · intro a ha b hb
      rw [List.mem_singleton] at hb
      rw [hb]
      exact forallIds_mem hfl ha
    · intro a ha b hb
      rcases List.mem_append.mp ha with ha | ha
      · exact lt_trans (forallIds_mem hfl ha) (forallIds_mem hfr hb)
      · rw [List.mem_singleton] at ha
        rw [ha]
        exact forallIds_mem hfr hb

theorem PTree.search_eq_some_of_mem {t : PTree} (ht : t.Ordered)
    {q : ProductModel} (hq : q ∈ t.serialize) : t.search q.id = some q := by
  induction ht with
  | leaf => simp [PTree.serialize] at hq
  | @node l r x hol hor hfl hfr ihl ihr =>
    simp only [PTree.serialize, List.append_assoc, List.mem_append,
      List.mem_singleton] at hq
    rcases hq with hq | hq | hq
    · have hlt : q.id < x.id := forallIds_mem hfl hq
      simp only [PTree.search]
      rw [if_neg (by omega), if_pos hlt]
      exact ihl hq
    · rw [hq]
      simp [PTree.search]
    · have hgt : x.id < q.id := forallIds_mem hfr hq
      simp only [PTree.search]
      rw [if_neg (by omega), if_neg (by omega)]
      exact ihr hq

theorem PTree.mem_of_search_eq_some {t : PTree} {i : Int}
    {q : ProductModel} (h : t.search i = some q) : q ∈ t.serialize := by
  induction t with
  | leaf => simp [PTree.search] at h
  | node l x r ihl ihr =>
    simp only [PTree.search] at h
    simp only [PTree.serialize, List.append_assoc, List.mem_append,
      List.mem_singleton]
    split_ifs at h with h1 h2
    · injection h with h
      exact Or.inr (Or.inl h.symm)
    · exact Or.inl (ihl h)
    · exact Or.inr (Or.inr (ihr h))

theorem search_insertAll (ds : List ProductModel) (t : PTree) (i : Int) :
    (insertAll t ds).search i =
      match lastInsert ds i with
      | some d => some d
      | none => t.search i := by
  induction ds generalizing t with
  | nil => simp [insertAll, lastInsert]
  | cons d ds ih =>
    have hstep : insertAll t (d :: ds) = insertAll (t.insert d) ds := rfl
    rw [hstep, ih]
    have hli : lastInsert (d :: ds) i =
        match lastInsert ds i with
        | some e => some e
        | none => if d.id == i then some d else none := by
      simp only [lastInsert, List.reverse_cons, List.find?_append]
      cases hfind : ds.reverse.find? (fun x => x.id == i) with
      | none =>
        simp only [Option.or]
        cases hdi : d.id == i <;> simp_all
      | some e => simp [Option.or]
    rw [hli]
    cases hlast : lastInsert ds i with
    | some e => rfl
    | none =>
      rw [PTree.search_insert]
      by_cases h : i = d.id
      · simp [h]
      · have hne : ¬ d.id = i := fun hc => h hc.symm
        simp [h, hne]

theorem ordered_insertAll (ds : List ProductModel) (t : PTree)
    (ht : t.Ordered) : (insertAll t ds).Ordered := by
  induction ds generalizing t with
  | nil => exact ht
  | cons d ds ih => exact ih _ (PTree.ordered_insert d ht)

theorem PTree.serialize_insert_max {t : PTree} {d : ProductModel}
    (h : t.ForallIds fun i => i < d.id) :
    (t.insert d).serialize = t.serialize ++ [d] := by
  induction h with
  | leaf => simp [PTree.insert, PTree.serialize]
  | @node l r x hl hx hr ihl ihr =>
    have hx' : x.id < d.id := hx
    have h1 : ¬ d.id < x.id := by omega
    have h2 : d.id > x.id := hx'
    simp [PTree.insert, if_neg h1, if_pos h2, PTree.serialize, ihr,
      List.append_assoc]

theorem serialize_insertAll_of_sorted (ds : List ProductModel)
    (h : ds.Pairwise fun a b => a.id < b.id) :
    (insertAll PTree.leaf ds).serialize = ds := by
  induction ds using List.reverseRecOn with
  | nil => rfl
  | append_singleton ds d ih =>
    have hds : ds.Pairwise fun a b => a.id < b.id :=
      (List.pairwise_append.mp h).1
    have hbound : ∀ a ∈ ds, a.id < d.id := fun a ha =>
      (List.pairwise_append.mp h).2.2 a ha d (List.mem_singleton_self d)
    have hfa : (insertAll PTree.leaf ds).ForallIds fun i => i < d.id := by
      apply PTree.forallIds_of_mem
      intro q hq
      rw [ih hds] at hq
      exact hbound q hq
    have hsplit : insertAll PTree.leaf (ds ++ [d])
        = (insertAll PTree.leaf ds).insert d := by
      simp [insertAll, List.foldl_append]
    rw [hsplit, PTree.serialize_insert_max hfa, ih hds]

/-! ## Lemmas about the order list -/

theorem applyStatus_id (st : Option String) (n : OrderRecord) :
    (applyStatus st n).id = n.id := by
  cases st with
  | none => rfl
  | some s =>
    by_cases h : s = "" <;> simp [applyStatus, h]

theorem applyStatus_products (st : Option String) (n : OrderRecord) :
    (applyStatus st n).products = n.products := by
  cases st with
  | none => rfl
  | some s =>
    by_cases h : s = "" <;> simp [applyStatus, h]

theorem applyStatus_total (st : Option String) (n : OrderRecord) :
    (applyStatus st n).total = n.total := by
  cases st with
  | none => rfl
  | some s =>
    by_cases h : s = "" <;> simp [applyStatus, h]

theorem applyProducts_id (ps : Option (List ProductModel))
    (n : OrderRecord) : (applyProducts ps n).id = n.id := by
  cases ps with
  | none => rfl
  | some l =>
    by_cases h : l = [] <;> simp [applyProducts, h]

theorem applyProducts_status (ps : Option (List ProductModel))
    (n : OrderRecord) : (applyProducts ps n).status = n.status := by
  cases ps with
  | none => rfl
  | some l =>
    by_cases h : l = [] <;> simp [applyProducts, h]

theorem applyProducts_total_inv (ps : Option (List ProductModel))
    (n : OrderRecord)
    (h : n.total = (n.products.map fun p => p.price).sum) :
    (applyProducts ps n).total
      = ((applyProducts ps n).products.map fun p => p.price).sum := by
  cases ps with
  | none => exact h
  | some l =>
    by_cases hl : l = [] <;> simp [applyProducts, hl, h]

theorem updateOrder_map_id (l : List OrderRecord) (oid : Int)
    (st : Option String) (ps : Option (List ProductModel)) :
    ((updateOrder l oid st ps).1.map fun o => o.id)
      = l.map fun o => o.id := by
  induction l with
  | nil => rfl
  | cons n rest ih =>
    simp only [updateOrder]
    split_ifs with h
    · simp [applyProducts_id, applyStatus_id]
    · simp [ih]

theorem updateOrder_total_inv (l : List OrderRecord) (oid : Int)
    (st : Option String) (ps : Option (List ProductModel))
    (h : ∀ o ∈ l, o.total = (o.products.map fun p => p.price).sum) :
    ∀ o ∈ (updateOrder l oid st ps).1,
      o.total = (o.products.map fun p => p.price).sum := by
  induction l with
  | nil => simp [updateOrder]
  | cons n rest ih =>
    simp only [updateOrder]
    split_ifs with hid
    · intro o ho
      rcases List.mem_cons.mp ho with ho | ho
      · rw [ho]
        apply applyProducts_total_inv
        rw [applyStatus_products, applyStatus_total]
        exact h n (List.mem_cons_self n rest)
      · exact h o (List.mem_cons_of_mem n ho)
    · intro o ho
      rcases List.mem_cons.mp ho with ho | ho
      · rw [ho]
        exact h n (List.mem_cons_self n rest)
      · exact ih (fun o ho => h o (List.mem_cons_of_mem n ho)) o ho

theorem updateOrder_not_found (l : List OrderRecord) (oid : Int)
    (st : Option String) (ps : Option (List ProductModel))
    (h : ∀ o ∈ l, o.id ≠ oid) : updateOrder l oid st ps = (l, none) := by
  induction l with
  | nil => rfl
  | cons n rest ih =>
    simp only [updateOrder]
    rw [if_neg (h n (List.mem_cons_self n rest))]
    simp [ih fun o ho => h o (List.mem_cons_of_mem n ho)]

theorem findOrder_eq_none_iff (l : List OrderRecord) (oid : Int) :
    findOrder l oid = none ↔ ∀ o ∈ l, o.id ≠ oid := by
  simp [findOrder, List.find?_eq_none]

theorem deleteOrder_sublist (l : List OrderRecord) (oid : Int) :
    (deleteOrder l oid).1.Sublist l := by
  induction l with
  | nil => simp [deleteOrder]
  | cons n rest ih =>
    simp only [deleteOrder]
    split_ifs with h
    · exact List.sublist_cons_self n rest
    · exact List.Sublist.cons₂ n ih

theorem deleteOrder_not_found (l : List OrderRecord) (oid : Int)
    (h : ∀ o ∈ l, o.id ≠ oid) : deleteOrder l oid = (l, false) := by
  induction l with
  | nil => rfl
  | cons n rest ih =>
    simp only [deleteOrder]
    rw [if_neg (h n (List.mem_cons_self n rest))]
    simp [ih fun o ho => h o (List.mem_cons_of_mem n ho)]

/-! ## Lemmas about persistence -/

theorem map_eq_self_of_forall {α : Type} (f : α → α) (l : List α)
    (h : ∀ a ∈ l, f a = a) : l.map f = l := by
  induction l with
  | nil => rfl
  | cons a l ih =>
    rw [List.map_cons, h a (List.mem_cons_self a l),
      ih fun b hb => h b (List.mem_cons_of_mem a hb)]

theorem replayOrder_eq (acc : List OrderRecord) (o : OrderRecord) :
    replayOrder acc o = acc ++ [reloadRecord o] := by
  simp [replayOrder, createOrder, reloadRecord, List.dropLast_concat]

theorem loadOrders_eq (os : List OrderRecord) (l : List OrderRecord) :
    loadOrders l (some os) = l ++ os.map reloadRecord := by
  induction os generalizing l with
  | nil => simp [loadOrders]
  | cons o os ih =>
    have hstep : loadOrders l (some (o :: os))
        = loadOrders (replayOrder l o) (some os) := rfl
    rw [hstep, ih, replayOrder_eq]
    simp

theorem reloadRecord_eq_self {o : OrderRecord}
    (h : o.total = (o.products.map fun p => p.price).sum) :
    reloadRecord o = o := by
  cases o with
  | mk i ps tot st => simp_all [reloadRecord]

/-! ## Lemmas about `replaceData` (the update-product path) -/

theorem PTree.forallIds_replaceData {p : Int → Prop} {t : PTree}
    {pid : Int} {d : ProductModel} (hd : d.id = pid) (ht : t.ForallIds p) :
    (t.replaceData pid d).ForallIds p := by
  induction ht with
  | leaf => exact .leaf
  | @node l r x hl hx hr ihl ihr =>
    simp only [PTree.replaceData]
    split_ifs with h1 h2
    · refine .node hl ?_ hr
      rw [hd, ← h1]
      exact hx
    · exact .node ihl hx hr
    · exact .node hl hx ihr

theorem PTree.ordered_replaceData {t : PTree} {pid : Int}
    {d : ProductModel} (hd : d.id = pid) (ht : t.Ordered) :
    (t.replaceData pid d).Ordered := by
  induction ht with
  | leaf => exact .leaf
  | @node l r x hol hor hfl hfr ihl ihr =>
    simp only [PTree.replaceData]
    split_ifs with h1 h2
    · have hdx : d.id = x.id := by rw [hd, h1]
      refine .node hol hor ?_ ?_
      · simp only [hdx]; exact hfl
      · simp only [hdx]; exact hfr
    · exact .node ihl hor (forallIds_replaceData hd hfl) hfr
    · exact .node hol ihr hfl (forallIds_replaceData hd hfr)

theorem PTree.search_replaceData_self {t : PTree} {pid : Int}
    {d q : ProductModel} (hd : d.id = pid) (hq : t.search pid = some q) :
    (t.replaceData pid d).search pid = some d := by
  induction t with
  | leaf => simp [PTree.search] at hq
  | node l x r ihl ihr =>
    by_cases h1 : x.id = pid
    · simp [PTree.replaceData, h1, PTree.search, hd]
    · by_cases h2 : pid < x.id
      · simp only [PTree.search, if_neg h1, if_pos h2] at hq
        simp only [PTree.replaceData, if_neg h1, if_pos h2, PTree.search]
        exact ihl hq
      · simp only [PTree.search, if_neg h1, if_neg h2] at hq
        simp only [PTree.replaceData, if_neg h1, if_neg h2, PTree.search]
        exact ihr hq

theorem PTree.search_replaceData_other {t : PTree} {pid : Int}
    {d : ProductModel} (hd : d.id = pid) (i : Int) (hi : i ≠ pid) :
    (t.replaceData pid d).search i = t.search i := by
  induction t with
  | leaf => rfl
  | node l x r ihl ihr =>
    by_cases h1 : x.id = pid
    · have hdx : d.id = x.id := by rw [hd, h1]
      have hxi : ¬ x.id = i := by omega
      simp only [PTree.replaceData, if_pos h1, PTree.search, hdx]
      rw [if_neg hxi, if_neg hxi]
    · by_cases h2 : pid < x.id
      · simp only [PTree.replaceData, if_neg h1, if_pos h2, PTree.search,
          ihl]
      · simp only [PTree.replaceData, if_neg h1, if_neg h2, PTree.search,
          ihr]

theorem PTree.serialize_map_id_replaceData {t : PTree} {pid : Int}
    {d : ProductModel} (hd : d.id = pid) :
    ((t.replaceData pid d).serialize.map fun q => q.id)
      = t.serialize.map fun q => q.id := by
  induction t with
  | leaf => rfl
  | node l x r ihl ihr =>
    by_cases h1 : x.id = pid
    · simp [PTree.replaceData, h1, PTree.serialize, hd]
    · by_cases h2 : pid < x.id
      · simp [PTree.replaceData, h1, h2, PTree.serialize, ihl]
      · simp [PTree.replaceData, h1, h2, PTree.serialize, ihr]

/-! ## Handler inversion lemmas -/

theorem createProductH_ok {s s' : AppState} {p : ProductModel}
    (h : createProductH s p = Except.ok s') :
    s.tree.search p.id = none
    ∧ s' = saveData { s with tree := s.tree.insert p } := by
  cases hs : s.tree.search p.id with
  | some q =>
    simp only [createProductH, hs] at h
    exact Except.noConfusion h
  | none =>
    simp only [createProductH, hs, Except.ok.injEq] at h
    exact ⟨rfl, h.symm⟩

theorem updateProductH_ok {s s' : AppState} {pid : Int}
    {upd : ProductModel} (h : updateProductH s pid upd = Except.ok s') :
    upd.id = pid
    ∧ (∃ q, s.tree.search pid = some q)
    ∧ s' = saveData { s with tree := s.tree.replaceData pid upd } := by
  cases hs : s.tree.search pid with
  | none =>
    simp only [updateProductH, hs] at h
    exact Except.noConfusion h
  | some q =>
    simp only [updateProductH, hs] at h
    by_cases hid : upd.id = pid
    · rw [if_neg (by simpa using hid)] at h
      simp only [Except.ok.injEq] at h
      exact ⟨hid, ⟨q, rfl⟩, h.symm⟩
    · rw [if_pos (by simpa using hid)] at h
      exact Except.noConfusion h

theorem createOrderH_ok {s s' : AppState} {oid : Int} {pids : List Int}
    (h : createOrderH s oid pids = Except.ok s') :
    findOrder s.orders oid = none
    ∧ ∃ ps, resolveProducts s.tree pids = Except.ok ps
        ∧ s' = saveData { s with orders := (createOrder s.orders oid ps).1 } := by
  cases hf : findOrder s.orders oid with
  | some o =>
    simp only [createOrderH, hf] at h
    exact Except.noConfusion h
  | none =>
    cases hres : resolveProducts s.tree pids with
    | error e =>
      simp only [createOrderH, hf, hres] at h
      exact Except.noConfusion h
    | ok ps =>
      simp only [createOrderH, hf, hres, Except.ok.injEq] at h
      exact ⟨rfl, ps, rfl, h.symm⟩

theorem updateOrderH_ok {s s' : AppState} {oid : Int} {st : Option String}
    {pids : Option (List Int)}
    (h : updateOrderH s oid st pids = Except.ok s') :
    ∃ ps, resolveOpt s.tree pids = Except.ok ps
      ∧ (∃ n, (updateOrder s.orders oid st ps).2 = some n)
      ∧ s' = saveData { s with orders := (updateOrder s.orders oid st ps).1 } := by
  cases hres : resolveOpt s.tree pids with
  | error e =>
    simp only [updateOrderH, hres] at h
    exact Except.noConfusion h
  | ok ps =>
    cases hu : (updateOrder s.orders oid st ps).2 with
    | none =>
      simp only [updateOrderH, hres, hu] at h
      exact Except.noConfusion h
    | some n =>
      simp only [updateOrderH, hres, hu, Except.ok.injEq] at h
      exact ⟨ps, rfl, ⟨n, hu⟩, h.symm⟩

theorem deleteOrderH_ok {s s' : AppState} {oid : Int}
    (h : deleteOrderH s oid = Except.ok s') :
    (deleteOrder s.orders oid).2 = true
    ∧ s' = saveData { s with orders := (deleteOrder s.orders oid).1 } := by
  cases hb : (deleteOrder s.orders oid).2 with
  | false => simp [deleteOrderH, hb] at h
  | true =>
    simp only [deleteOrderH, hb, if_true, Except.ok.injEq] at h
    exact ⟨rfl, h.symm⟩

/-! ## The invariant holds in every reachable state -/

theorem step_inv {s s' : AppState} (h : Step s s') (hs : Inv s) : Inv s' := by
  obtain ⟨hord, htot, hnd⟩ := hs
  cases h with
  | createProduct p h =>
    obtain ⟨_, hs2⟩ := createProductH_ok h
    subst hs2
    exact ⟨PTree.ordered_insert p hord, htot, hnd⟩
  | updateProduct pid p h =>
    obtain ⟨hid, _, hs2⟩ := updateProductH_ok h
    subst hs2
    exact ⟨PTree.ordered_replaceData hid hord, htot, hnd⟩
  | createOrder oid pids h =>
    obtain ⟨hf, ps, _, hs2⟩ := createOrderH_ok h
    subst hs2
    refine ⟨hord, ?_, ?_⟩
    · intro o ho
      rcases List.mem_append.mp ho with ho | ho
      · exact htot o ho
      · rw [List.mem_singleton] at ho
        rw [ho]
    · have hfresh : ∀ o ∈ s.orders, o.id ≠ oid :=
        (findOrder_eq_none_iff s.orders oid).mp hf
      have : ((createOrder s.orders oid ps).1.map fun o => o.id)
          = (s.orders.map fun o => o.id) ++ [oid] := by
        simp [createOrder]
      show ((createOrder s.orders oid ps).1.map fun o => o.id).Nodup
      rw [this, List.nodup_append]
      refine ⟨hnd, List.nodup_singleton oid, ?_⟩
      intro a ha
      rcases List.mem_map.mp ha with ⟨o, ho, rfl⟩
      simp only [List.mem_singleton]
      exact hfresh o ho
  | updateOrder oid st pids h =>
    obtain ⟨ps, _, _, hs2⟩ := updateOrderH_ok h
    subst hs2
    refine ⟨hord, updateOrder_total_inv _ _ _ _ htot, ?_⟩
    show ((updateOrder s.orders oid st ps).1.map fun o => o.id).Nodup
    rw [updateOrder_map_id]
    exact hnd
  | deleteOrder oid h =>
    obtain ⟨_, hs2⟩ := deleteOrderH_ok h
    subst hs2
    refine ⟨hord, ?_, ?_⟩
    · intro o ho
      exact htot o ((deleteOrder_sublist s.orders oid).subset ho)
    · show ((deleteOrder s.orders oid).1.map fun o => o.id).Nodup
      exact hnd.sublist ((deleteOrder_sublist s.orders oid).map _)

theorem reachable_inv {s : AppState} (h : Reachable s) : Inv s := by
  induction h with
  | refl =>
    refine ⟨PTree.Ordered.leaf, ?_, ?_⟩ <;> simp [initState]
  | tail hab hbc ih => exact step_inv hbc ih

/-! ## Further helper lemmas for the claims -/

theorem resolveProducts_error_of_missing (t : PTree) (pids : List Int)
    (h : ∃ pid ∈ pids, t.search pid = none) :
    resolveProducts t pids = Except.error Err.notFound := by
  induction pids with
  | nil => simp at h
  | cons pid rest ih =>
    obtain ⟨q, hq, hnone⟩ := h
    cases hs : t.search pid with
    | none => simp [resolveProducts, hs]
    | some p =>
      rcases List.mem_cons.mp hq with hq | hq
      · subst hq
        rw [hs] at hnone
        exact Option.noConfusion hnone
      · have hrec := ih ⟨q, hq, hnone⟩
        simp [resolveProducts, hs, hrec]

theorem updateOrder_status_only_frame (l : List OrderRecord) (oid : Int)
    (st : Option String) :
    ((updateOrder l oid st none).1.map fun o => (o.products, o.total))
      = l.map fun o => (o.products, o.total) := by
  induction l with
  | nil => rfl
  | cons n rest ih =>
    simp only [updateOrder]
    split_ifs with h
    · simp [applyProducts, applyStatus_products, applyStatus_total]
    · simp [ih]

theorem updateOrder_products_only_status_frame (l : List OrderRecord)
    (oid : Int) (ps : Option (List ProductModel)) :
    ((updateOrder l oid none ps).1.map fun o => o.status)
      = l.map fun o => o.status := by
  induction l with
  | nil => rfl
  | cons n rest ih =>
    simp only [updateOrder]
    split_ifs with h
    · simp [applyStatus, applyProducts_status]
    · simp [ih]

theorem updateOrder_result_products (l : List OrderRecord) (oid : Int)
    (ps : List ProductModel) (hps : ps ≠ []) (n : OrderRecord)
    (h : (updateOrder l oid none (some ps)).2 = some n) :
    n.products = ps ∧ n.total = (ps.map fun p => p.price).sum := by
  induction l with
  | nil => simp [updateOrder] at h
  | cons m rest ih =>
    simp only [updateOrder] at h
    split_ifs at h with hid
    · cases Option.some.inj h
      constructor <;> simp [applyProducts, applyStatus, hps]
    · exact ih h

theorem updateOrder_empty_products (l : List OrderRecord) (oid : Int)
    (st : Option String) :
    updateOrder l oid st (some []) = updateOrder l oid st none := by
  induction l with
  | nil => rfl
  | cons n rest ih =>
    simp only [updateOrder]
    split_ifs with h <;> simp [applyProducts, ih]

/-! ## The claims -/

/-- C1: for every sequence of inserts into an initially empty product
index — including inserts that reuse an existing id — `serialize()`
returns the products in strictly ascending id order (hence at most one
entry per id), and an entry is present for an id exactly when some insert
used that id, carrying the data of the last such insert. -/
theorem C1_serialize_ascending_last_insert_wins (ds : List ProductModel) :
    ((insertAll PTree.leaf ds).serialize.Pairwise fun a b => a.id < b.id)
    ∧ ∀ p : ProductModel,
        p ∈ (insertAll PTree.leaf ds).serialize
          ↔ lastInsert ds p.id = some p := by
  have hord : (insertAll PTree.leaf ds).Ordered :=
    ordered_insertAll ds PTree.leaf PTree.Ordered.leaf
  refine ⟨PTree.pairwise_serialize hord, fun p => ⟨?_, ?_⟩⟩
  · intro hp
    have hsearch := PTree.search_eq_some_of_mem hord hp
    have hfold := search_insertAll ds PTree.leaf p.id
    rw [hsearch] at hfold
    cases hl : lastInsert ds p.id with
    | none =>
      rw [hl] at hfold
      simp [PTree.search] at hfold
    | some d =>
      rw [hl] at hfold
      exact congrArg some (Option.some.inj hfold).symm
  · intro hl
    have hfold := search_insertAll ds PTree.leaf p.id
    rw [hl] at hfold
    exact PTree.mem_of_search_eq_some hfold

/-- C2: for every reachable pair of stores, `save()` followed by `load()`
into a fresh empty product index and order list reproduces equivalent
stores: the product index holds the same entries (`serialize` is equal,
hence same ids and data), and the order list is reproduced exactly — same
ids, snapshots, totals and statuses in the same order.  The loader's
status patch after each replayed `create` restores the status, and the
total recomputed by `create` agrees with the persisted one because every
reachable order's total is the sum of its snapshot prices. -/
theorem C2_save_load_roundtrip (s : AppState) (h : Reachable s) :
    (freshReload s).tree.serialize = s.tree.serialize
    ∧ (freshReload s).orders = s.orders := by
  obtain ⟨hord, htot, hnd⟩ := reachable_inv h
  constructor
  · show (loadProducts PTree.leaf
      (some s.tree.serialize)).serialize = s.tree.serialize
    exact serialize_insertAll_of_sorted _ (PTree.pairwise_serialize hord)
  · show loadOrders [] (some (listAll s.orders)) = s.orders
    rw [loadOrders_eq]
    simp only [List.nil_append]
    exact map_eq_self_of_forall _ _
      fun o ho => reloadRecord_eq_self (htot o ho)

/-- C2 witness: the round trip at the concrete reachable state with one
product and one order. -/
theorem C2_save_load_roundtrip_witness :
    (freshReload sW2).tree.serialize = sW2.tree.serialize
    ∧ (freshReload sW2).orders = sW2.orders :=
  C2_save_load_roundtrip sW2
    (Relation.ReflTransGen.tail
      (Relation.ReflTransGen.tail Relation.ReflTransGen.refl
        (Step.createProduct initState sW1 pW rfl))
      (Step.createOrder sW1 sW2 1 [1] rfl))

/-- C3: in every reachable state, every order's `total` equals the exact
sum of the prices of its current product snapshots.  The invariant is
established by `create_order` and re-established by every update that
replaces the snapshots; no code path sets `total` independently of the
snapshots. -/
theorem C3_total_equals_snapshot_price_sum (s : AppState)
    (h : Reachable s) :
    ∀ o ∈ s.orders, o.total = (o.products.map fun p => p.price).sum :=
  (reachable_inv h).2.1

/-- C3 witness: the invariant at the concrete reachable state `sW2` for
its one order. -/
theorem C3_total_equals_snapshot_price_sum_witness :
    oW.total = (oW.products.map fun p => p.price).sum :=
  C3_total_equals_snapshot_price_sum sW2
    (Relation.ReflTransGen.tail
      (Relation.ReflTransGen.tail Relation.ReflTransGen.refl
        (Step.createProduct initState sW1 pW rfl))
      (Step.createOrder sW1 sW2 1 [1] rfl))
    oW (List.mem_singleton_self oW)

/-- C4 counterexample: the claim says every create-order request with an
unresolved product id fails with NotFound, but the handler checks the
duplicate order id first (line 262) and the product ids only afterwards
(lines 267-270).  In the reachable state `sC4` (order id 1 exists, product
index empty) the request `create_order 1 [99]` has a missing product id 99
yet fails with Conflict, not NotFound. -/
theorem C4_counterexample :
    Reachable sC4
    ∧ sC4.tree.search 99 = none
    ∧ createOrderH sC4 1 [99] = Except.error Err.conflict
    ∧ Err.conflict ≠ Err.notFound :=
  ⟨Relation.ReflTransGen.tail Relation.ReflTransGen.refl
      (Step.createOrder initState sC4 1 [] rfl),
   rfl, rfl, by decide⟩

/-- C4 amended: for every create-order request whose order id is not
already taken and whose product-id list contains at least one id not in
the product index, the operation fails with NotFound and performs no
mutation (the handler raises before touching the order list or calling
`save_data`; an error result carries no new state).  When the order id is
already taken the request also fails without mutating, but with Conflict. -/
theorem C4_missing_product_aborts_create (s : AppState) (oid : Int)
    (pids : List Int) (hfresh : findOrder s.orders oid = none)
    (hmiss : ∃ pid ∈ pids, s.tree.search pid = none) :
    createOrderH s oid pids = Except.error Err.notFound := by
  have hres := resolveProducts_error_of_missing s.tree pids hmiss
  simp [createOrderH, hfresh, hres]

/-- C4 witness: creating order 7 against `sW1` (product 1 exists, 99 does
not) fails with NotFound. -/
theorem C4_missing_product_aborts_create_witness :
    createOrderH sW1 7 [1, 99] = Except.error Err.notFound :=
  C4_missing_product_aborts_create sW1 7 [1, 99] rfl ⟨99, by decide, rfl⟩

/-- C5: embedded product data in an order is a snapshot: a successful
update-product (explicit update path) or create-product (insert path)
leaves the order store — hence every order's embedded snapshots and its
total — exactly unchanged.  The value model is faithful to the source's
aliasing: both the upsert (line 64) and the update handler (line 250)
rebind `node.data` to a fresh object and no code path mutates a
`ProductModel` in place, so an order's previously captured snapshot list
can never be affected by product-store writes. -/
theorem C5_snapshots_unaffected_by_product_writes (s s' : AppState)
    (pid : Int) (d : ProductModel) :
    (updateProductH s pid d = Except.ok s' → s'.orders = s.orders)
    ∧ (createProductH s d = Except.ok s' → s'.orders = s.orders) := by
  constructor
  · intro h
    obtain ⟨_, _, hs2⟩ := updateProductH_ok h
    subst hs2
    rfl
  · intro h
    obtain ⟨_, hs2⟩ := createProductH_ok h
    subst hs2
    rfl

/-- C5 witness: updating product 1's price to 99 in `sW2` leaves the order
(and its snapshot of the old product, price 10) unchanged. -/
theorem C5_snapshots_unaffected_by_product_writes_witness :
    sW2'.orders = sW2.orders :=
  (C5_snapshots_unaffected_by_product_writes sW2 sW2' 1 pW2).1 rfl

/-- C6 counterexample: the claim says an update supplying only a new
product list recomputes the total as the sum of the new snapshot prices,
but Python's `if new_products:` (line 137) treats a supplied empty list as
not supplied: in the reachable state `sW2`, updating order 1 with the
empty product list succeeds and leaves the order untouched — its snapshot
list stays `[pW]` and its total stays 10, not the sum 0 of the supplied
(empty) list's prices. -/
theorem C6_counterexample :
    Reachable sW2
    ∧ updateOrderH sW2 1 none (some []) = Except.ok sW2
    ∧ findOrder sW2.orders 1 = some oW
    ∧ oW.products = [pW]
    ∧ oW.total ≠ (([] : List ProductModel).map fun p => p.price).sum :=
  ⟨Relation.ReflTransGen.tail
      (Relation.ReflTransGen.tail Relation.ReflTransGen.refl
        (Step.createProduct initState sW1 pW rfl))
      (Step.createOrder sW1 sW2 1 [1] rfl),
   rfl, rfl, rfl, by norm_num [oW, pW]⟩

/-- C6 amended: an update supplying only a new status leaves every order's
product snapshots and total unchanged; an update supplying only a
*non-empty* new product list leaves every order's status unchanged and
gives the updated order exactly the new snapshots with total recomputed as
their price sum; a supplied *empty* product list is treated exactly like
an absent one (Python truthiness), leaving snapshots and total unchanged. -/
theorem C6_update_order_frame (l : List OrderRecord) (oid : Int)
    (st : String) (ps : List ProductModel) (hps : ps ≠ []) :
    (((updateOrder l oid (some st) none).1.map
        fun o => (o.products, o.total))
      = l.map fun o => (o.products, o.total))
    ∧ (((updateOrder l oid none (some ps)).1.map fun o => o.status)
      = l.map fun o => o.status)
    ∧ (∀ n, (updateOrder l oid none (some ps)).2 = some n →
        n.products = ps ∧ n.total = (ps.map fun p => p.price).sum)
    ∧ updateOrder l oid none (some ([] : List ProductModel))
        = updateOrder l oid none none :=
  ⟨updateOrder_status_only_frame l oid (some st),
   updateOrder_products_only_status_frame l oid (some ps),
   fun n h => updateOrder_result_products l oid ps hps n h,
   updateOrder_empty_products l oid none⟩

/-- C6 witness: a status-only update of the singleton list `[oW]` keeps
its snapshots/total, and an empty supplied product list acts like an
absent one. -/
theorem C6_update_order_frame_witness :
    (((updateOrder [oW] 1 (some "shipped") none).1.map
        fun o => (o.products, o.total))
      = [oW].map fun o => (o.products, o.total))
    ∧ updateOrder [oW] 1 none (some ([] : List ProductModel))
        = updateOrder [oW] 1 none none := by
  have h := C6_update_order_frame [oW] 1 "shipped" [pW2] (by simp)
  exact ⟨h.1, h.2.2.2⟩

/-- C7: order ids are unique across the list: a create-order request whose
id is already stored fails with Conflict (line 262-263, before any
resolution or mutation), so the list retains exactly the previously stored
order for that id and no record is appended — the error return carries no
new state and `save_data` is never reached. -/
theorem C7_duplicate_order_id_conflict (s : AppState) (oid : Int)
    (pids : List Int) (o : OrderRecord)
    (h : findOrder s.orders oid = some o) :
    createOrderH s oid pids = Except.error Err.conflict := by
  simp [createOrderH, h]

/-- C7 witness: re-creating order id 1 in `sC4` fails with Conflict. -/
theorem C7_duplicate_order_id_conflict_witness :
    createOrderH sC4 1 [] = Except.error Err.conflict :=
  C7_duplicate_order_id_conflict sC4 1 [] o0 rfl

/-- C8: the update-product operation fails with NotFound when no entry
with the target id exists; when the entry exists it fails with
InvalidArgument if the supplied record's id differs from the target id,
and otherwise succeeds, replacing exactly the stored entry's data with the
supplied record (all other ids unchanged), never changing any entry's id,
and persisting both artifacts. -/
theorem C8_update_product_contract (s : AppState) (pid : Int)
    (d : ProductModel) :
    (s.tree.search pid = none →
        updateProductH s pid d = Except.error Err.notFound)
    ∧ ((∃ q, s.tree.search pid = some q) → d.id ≠ pid →
        updateProductH s pid d = Except.error Err.invalidArgument)
    ∧ ((∃ q, s.tree.search pid = some q) → d.id = pid →
        ∃ s', updateProductH s pid d = Except.ok s'
          ∧ s'.tree.search pid = some d
          ∧ (∀ i, i ≠ pid → s'.tree.search i = s.tree.search i)
          ∧ ((s'.tree.serialize.map fun q => q.id)
              = s.tree.serialize.map fun q => q.id)
          ∧ s'.productsFile = some s'.tree.serialize
          ∧ s'.ordersFile = some s'.orders) := by
  refine ⟨?_, ?_, ?_⟩
  · intro h
    simp [updateProductH, h]
  · rintro ⟨q, hq⟩ hne
    simp [updateProductH, hq, hne]
  · rintro ⟨q, hq⟩ hid
    refine ⟨saveData { s with tree := s.tree.replaceData pid d },
      ?_, ?_, ?_, ?_, rfl, rfl⟩
    · simp [updateProductH, hq, hid]
    · exact PTree.search_replaceData_self hid hq
    · intro i hi
      exact PTree.search_replaceData_other hid i hi
    · exact PTree.serialize_map_id_replaceData hid

/-- C8 witness: updating product 1 of `sW1` with a record whose id is 2
fails with InvalidArgument. -/
theorem C8_update_product_contract_witness :
    updateProductH sW1 1 pBad = Except.error Err.invalidArgument :=
  (C8_update_product_contract sW1 1 pBad).2.1 ⟨pW, rfl⟩ (by decide)

/-- C9: on a list with pairwise-distinct order ids (an invariant of every
reachable order list), `delete(id)` returns true and removes exactly the
record with that id — the remaining records are the original list filtered
of that id, keeping their relative order — after which `find(id)` is
not-found and the length has dropped by exactly one; when no record has
the id, it returns false and the list is unchanged. -/
theorem C9_delete_order_contract (l : List OrderRecord) (oid : Int)
    (hnd : (l.map fun o => o.id).Nodup) :
    ((∃ o ∈ l, o.id = oid) →
        (deleteOrder l oid).2 = true
        ∧ (deleteOrder l oid).1 = l.filter (fun o => o.id != oid)
        ∧ findOrder (deleteOrder l oid).1 oid = none
        ∧ (deleteOrder l oid).1.length + 1 = l.length)
    ∧ ((∀ o ∈ l, o.id ≠ oid) → deleteOrder l oid = (l, false)) := by
  constructor
  · intro hex
    induction l with
    | nil => simp at hex
    | cons n rest ih =>
      rw [List.map_cons, List.nodup_cons] at hnd
      obtain ⟨hnotin, hndrest⟩ := hnd
      by_cases h : n.id = oid
      · have hrest : ∀ o ∈ rest, o.id ≠ oid := by
          intro o ho hoid
          apply hnotin
          rw [h, ← hoid]
          exact List.mem_map_of_mem _ ho
        have h1 : deleteOrder (n :: rest) oid = (rest, true) := by
          simp [deleteOrder, h]
        have h2 : (n :: rest).filter (fun o => o.id != oid) = rest := by
          rw [List.filter_cons_of_neg (by simp [h])]
          exact List.filter_eq_self.mpr fun o ho => by
            simpa using hrest o ho
        have h3 : findOrder rest oid = none :=
          (findOrder_eq_none_iff rest oid).mpr hrest
        rw [h1]
        exact ⟨rfl, h2.symm, h3, rfl⟩
      · obtain ⟨o, ho, hoid⟩ := hex
        have ho' : o ∈ rest := by
          rcases List.mem_cons.mp ho with rfl | ho'
          · exact absurd hoid h
          · exact ho'
        obtain ⟨ht, hfil, hfind, hlen⟩ := ih hndrest ⟨o, ho', hoid⟩
        have hd : deleteOrder (n :: rest) oid
            = (n :: (deleteOrder rest oid).1, (deleteOrder rest oid).2) := by
          simp [deleteOrder, h]
        rw [hd]
        refine ⟨ht, ?_, ?_, ?_⟩
        · rw [List.filter_cons_of_pos (by simp [h]), hfil]
        · show findOrder (n :: (deleteOrder rest oid).1) oid = none
          unfold findOrder
          rw [List.find?_cons_of_neg _ (by simp [h])]
          exact hfind
        · simp only [List.length_cons]
          omega
  · intro hall
    exact deleteOrder_not_found l oid hall

/-- C9 witness: deleting order 1 from the two-order list `[o0, o2]`
returns true, makes a later find miss, and shrinks the list by one. -/
theorem C9_delete_order_contract_witness :
    (deleteOrder [o0, o2] 1).2 = true
    ∧ findOrder (deleteOrder [o0, o2] 1).1 1 = none
    ∧ (deleteOrder [o0, o2] 1).1.length + 1
        = ([o0, o2] : List OrderRecord).length := by
  have h := (C9_delete_order_contract [o0, o2] 1 (by decide)).1
    ⟨o0, List.mem_cons_self o0 [o2], rfl⟩
  exact ⟨h.1, h.2.2.1, h.2.2.2⟩

/-- C10: an update-order or delete-order that fails with NotFound is
atomic: at the store level the traversal returns the order list exactly as
it was (`update_order` mutates nothing when the id is absent, and
`delete_order` relinks nothing), the handler returns the NotFound error —
raised before `save_data` — and the error result carries no new state, so
neither store nor artifact changes.  The same holds when an update's
product-id resolution fails. -/
theorem C10_notfound_failures_atomic (s : AppState) (oid : Int)
    (st : Option String) (ps : Option (List ProductModel))
    (pids : List Int) :
    (findOrder s.orders oid = none →
        updateOrder s.orders oid st ps = (s.orders, none)
        ∧ deleteOrder s.orders oid = (s.orders, false)
        ∧ updateOrderH s oid st none = Except.error Err.notFound
        ∧ deleteOrderH s oid = Except.error Err.notFound)
    ∧ (pids ≠ [] →
        resolveProducts s.tree pids = Except.error Err.notFound →
        updateOrderH s oid st (some pids) = Except.error Err.notFound) := by
  constructor
  · intro h
    have hall := (findOrder_eq_none_iff s.orders oid).mp h
    have h1 := updateOrder_not_found s.orders oid st ps hall
    have h2 := deleteOrder_not_found s.orders oid hall
    refine ⟨h1, h2, ?_, ?_⟩
    · have h1' := updateOrder_not_found s.orders oid st none hall
      simp [updateOrderH, resolveOpt, h1']
    · simp [deleteOrderH, h2]
  · intro hne hres
    simp [updateOrderH, resolveOpt, hne, hres]

/-- C10 witness: updating or deleting the absent order id 5 in `sW2`
leaves the store as-is and fails with NotFound. -/
theorem C10_notfound_failures_atomic_witness :
    updateOrder sW2.orders 5 none none = (sW2.orders, none)
    ∧ deleteOrderH sW2 5 = Except.error Err.notFound := by
  have h := (C10_notfound_failures_atomic sW2 5 none none []).1 rfl
  exact ⟨h.1, h.2.2.2⟩

end SGP
